import Mathlib

/-!
Verification of `libc/src/__support/math_extras.h`: the add-with-carry and
subtract-with-borrow primitives.  Unsigned values of a width-`w` type `T`
are embedded as natural numbers, with every `T`-typed arithmetic operation
reduced modulo `2 ^ w`.  Wrapping unsigned subtraction `x - y` is embedded
as `(x + 2 ^ w - y) % 2 ^ w`, which agrees with the C semantics whenever
`y < 2 ^ w` (always true for a `T`-typed operand).
-/

namespace MathExtras

/-- Result record of an add-with-carry, mirroring `struct SumCarry`. -/
structure SumCarry where
  sum : Nat
  carry : Nat
  deriving DecidableEq, Repr

/-- Result record of a subtract-with-borrow, mirroring `struct DiffBorrow`. -/
structure DiffBorrow where
  diff : Nat
  borrow : Nat
  deriving DecidableEq, Repr

/-- Portable add-with-carry, translated from `add_with_carry_const`:
`tmp = a + carry_in; sum = b + tmp; carry_out = (sum < b) + (tmp < a)`,
with each `T`-typed store reduced modulo `2 ^ w`. -/
def add_with_carry_const (w a b carry_in : Nat) : SumCarry :=
  let tmp := (a + carry_in) % 2 ^ w
  let sum := (b + tmp) % 2 ^ w
  let carry_out :=
    ((if sum < b then 1 else 0) + (if tmp < a then 1 else 0)) % 2 ^ w
  ⟨sum, carry_out⟩

/-- Generic `add_with_carry` entry point: the source's primary template
simply forwards to `add_with_carry_const`. -/
def add_with_carry (w a b carry_in : Nat) : SumCarry :=
  add_with_carry_const w a b carry_in

/-- Portable subtract-with-borrow, translated from `sub_with_borrow_const`:
`tmp = a - b; diff = tmp - borrow_in; borrow_out = (diff > tmp) + (tmp > a)`,
with wrapping subtraction embedded as `(x + 2 ^ w - y) % 2 ^ w`. -/
def sub_with_borrow_const (w a b borrow_in : Nat) : DiffBorrow :=
  let tmp := (a + 2 ^ w - b) % 2 ^ w
  let diff := (tmp + 2 ^ w - borrow_in) % 2 ^ w
  let borrow_out :=
    ((if tmp < diff then 1 else 0) + (if a < tmp then 1 else 0)) % 2 ^ w
  ⟨diff, borrow_out⟩

/-- Generic `sub_with_borrow` entry point: the source's primary template
simply forwards to `sub_with_borrow_const`. -/
def sub_with_borrow (w a b borrow_in : Nat) : DiffBorrow :=
  sub_with_borrow_const w a b borrow_in

/-- Modelled from the spec: the accelerated `add_with_carry` specializations
delegate to the compiler builtins `__builtin_addcb/addcs/addc/addcl/addcll`,
whose bodies are not in the repository.  Per the spec, the builtin returns
the truncated sum of `a + b + carry_in` together with a carry flag
normalized to `{0, 1}`; for in-range inputs that flag is the overflow count
`(a + b + carry_in) / 2 ^ w`. -/
def add_with_carry_builtin (w a b carry_in : Nat) : SumCarry :=
  ⟨(a + b + carry_in) % 2 ^ w, (a + b + carry_in) / 2 ^ w⟩

/-- Modelled from the spec: the accelerated `sub_with_borrow` specializations
delegate to the compiler builtins `__builtin_subcb/subcs/subc/subcl/subcll`,
whose bodies are not in the repository.  Per the spec, the builtin returns
the truncated difference `a - b - borrow_in` together with a borrow flag
normalized to `{0, 1}`, set exactly when the true difference is negative. -/
def sub_with_borrow_builtin (w a b borrow_in : Nat) : DiffBorrow :=
  ⟨(a + 2 * 2 ^ w - b - borrow_in) % 2 ^ w,
   if a < b + borrow_in then 1 else 0⟩

/-- One wrapping addition step: for summands below `N`, either the sum does
not wrap (quotient zero, and the source's wrap test `result < first_operand`
is false), or it wraps once (quotient one, and the wrap test is true). -/
lemma addStep (N x y : Nat) (hN : 0 < N) (hx : x < N) (hy : y < N) :
    ((x + y) % N = x + y ∧ (x + y) / N = 0 ∧ ¬ (x + y) % N < x) ∨
      ((x + y) % N + N = x + y ∧ (x + y) / N = 1 ∧ (x + y) % N < x) := by
  rcases Nat.lt_or_ge (x + y) N with h | h
  · left
    rw [Nat.mod_eq_of_lt h, Nat.div_eq_of_lt h]
    omega
  · right
    have h2 : x + y - N < N := by omega
    have hmod : (x + y) % N = x + y - N := by
      rw [Nat.mod_eq_sub_mod h, Nat.mod_eq_of_lt h2]
    have hdiv : (x + y) / N = 1 := by
      rw [Nat.div_eq_sub_div hN h, Nat.div_eq_of_lt h2]
    omega

/-- One wrapping subtraction step for the embedding `(x + N - y) % N` of the
unsigned difference `x - y`, with both operands below `N`: either `x < y`
and the difference wraps (quotient zero, and the source's wrap test
`first_operand < result` is true), or `y ≤ x` and it does not (quotient
one, wrap test false). -/
lemma subStep (N x y : Nat) (hN : 0 < N) (hx : x < N) (hy : y < N) :
    ((x + N - y) % N = x + N - y ∧ (x + N - y) / N = 0 ∧
        x < (x + N - y) % N) ∨
      ((x + N - y) % N + N = x + N - y ∧ (x + N - y) / N = 1 ∧
        ¬ x < (x + N - y) % N) := by
  rcases Nat.lt_or_ge (x + N - y) N with h | h
  · left
    rw [Nat.mod_eq_of_lt h, Nat.div_eq_of_lt h]
    omega
  · right
    have h2 : x + N - y - N < N := by omega
    have hmod : (x + N - y) % N = x + N - y - N := by
      rw [Nat.mod_eq_sub_mod h, Nat.mod_eq_of_lt h2]
    have hdiv : (x + N - y) / N = 1 := by
      rw [Nat.div_eq_sub_div hN h, Nat.div_eq_of_lt h2]
    omega

/-- Uniqueness of the division algorithm: if `x = r + N * q` with `r < N`,
then `r` and `q` are exactly `x % N` and `x / N`. -/
lemma modDivChar (N r q x : Nat) (hr : r < N) (h : x = r + N * q) :
    x % N = r ∧ x / N = q := by
  have hN : 0 < N := by omega
  subst h
  refine ⟨?_, ?_⟩
  · rw [Nat.add_mul_mod_self_left, Nat.mod_eq_of_lt hr]
  · rw [Nat.add_mul_div_left _ _ hN, Nat.div_eq_of_lt hr, Nat.zero_add]

/-- Normal form of the portable add: for in-range inputs it returns the
truncated full sum and, as carry, the overflow count reduced modulo
`2 ^ w`. -/
lemma add_with_carry_const_eq (w a b c : Nat)
    (ha : a < 2 ^ w) (hb : b < 2 ^ w) (hc : c < 2 ^ w) :
    add_with_carry_const w a b c =
      ⟨(a + b + c) % 2 ^ w, ((a + b + c) / 2 ^ w) % 2 ^ w⟩ := by
  have hN : 0 < 2 ^ w := Nat.pos_pow_of_pos w (by norm_num)
  have htmp : (a + c) % 2 ^ w < 2 ^ w := Nat.mod_lt _ hN
  have hs : (b + (a + c) % 2 ^ w) % 2 ^ w < 2 ^ w := Nat.mod_lt _ hN
  rcases addStep (2 ^ w) a c hN ha hc with ⟨m1, d1, i1⟩ | ⟨m1, d1, i1⟩ <;>
    rcases addStep (2 ^ w) b ((a + c) % 2 ^ w) hN hb htmp with
      ⟨m2, d2, i2⟩ | ⟨m2, d2, i2⟩
  · obtain ⟨hmod, hdiv⟩ := modDivChar (2 ^ w)
      ((b + (a + c) % 2 ^ w) % 2 ^ w) 0 (a + b + c) hs (by omega)
    simp only [add_with_carry_const, SumCarry.mk.injEq]
    rw [hmod, hdiv, if_neg i2, if_neg i1]
    exact ⟨rfl, rfl⟩
  · obtain ⟨hmod, hdiv⟩ := modDivChar (2 ^ w)
      ((b + (a + c) % 2 ^ w) % 2 ^ w) 1 (a + b + c) hs (by omega)
    simp only [add_with_carry_const, SumCarry.mk.injEq]
    rw [hmod, hdiv, if_pos i2, if_neg i1]
    exact ⟨rfl, rfl⟩
  · obtain ⟨hmod, hdiv⟩ := modDivChar (2 ^ w)
      ((b + (a + c) % 2 ^ w) % 2 ^ w) 1 (a + b + c) hs (by omega)
    simp only [add_with_carry_const, SumCarry.mk.injEq]
    rw [hmod, hdiv, if_neg i2, if_pos i1]
    exact ⟨rfl, rfl⟩
  · obtain ⟨hmod, hdiv⟩ := modDivChar (2 ^ w)
      ((b + (a + c) % 2 ^ w) % 2 ^ w) 2 (a + b + c) hs (by omega)
    simp only [add_with_carry_const, SumCarry.mk.injEq]
    rw [hmod, hdiv, if_pos i2, if_pos i1]
    exact ⟨rfl, rfl⟩

/-- Normal form of the portable sub: for in-range inputs it returns the
truncated full difference (computed as `(a + 2·2^w - b - c) % 2^w`) and, as
borrow, `two minus the quotient` reduced modulo `2 ^ w`. -/
lemma sub_with_borrow_const_eq (w a b c : Nat)
    (ha : a < 2 ^ w) (hb : b < 2 ^ w) (hc : c < 2 ^ w) :
    sub_with_borrow_const w a b c =
      ⟨(a + 2 * 2 ^ w - b - c) % 2 ^ w,
       (2 - (a + 2 * 2 ^ w - b - c) / 2 ^ w) % 2 ^ w⟩ := by
  have hN : 0 < 2 ^ w := Nat.pos_pow_of_pos w (by norm_num)
  have htmp : (a + 2 ^ w - b) % 2 ^ w < 2 ^ w := Nat.mod_lt _ hN
  have hD : ((a + 2 ^ w - b) % 2 ^ w + 2 ^ w - c) % 2 ^ w < 2 ^ w :=
    Nat.mod_lt _ hN
  rcases subStep (2 ^ w) a b hN ha hb with ⟨m1, d1, i1⟩ | ⟨m1, d1, i1⟩ <;>
    rcases subStep (2 ^ w) ((a + 2 ^ w - b) % 2 ^ w) c hN htmp hc with
      ⟨m2, d2, i2⟩ | ⟨m2, d2, i2⟩
  · obtain ⟨hmod, hdiv⟩ := modDivChar (2 ^ w)
      (((a + 2 ^ w - b) % 2 ^ w + 2 ^ w - c) % 2 ^ w) 0
      (a + 2 * 2 ^ w - b - c) hD (by omega)
    simp only [sub_with_borrow_const, DiffBorrow.mk.injEq]
    rw [hmod, hdiv, if_pos i2, if_pos i1]
    exact ⟨rfl, rfl⟩
  · obtain ⟨hmod, hdiv⟩ := modDivChar (2 ^ w)
      (((a + 2 ^ w - b) % 2 ^ w + 2 ^ w - c) % 2 ^ w) 1
      (a + 2 * 2 ^ w - b - c) hD (by omega)
    simp only [sub_with_borrow_const, DiffBorrow.mk.injEq]
    rw [hmod, hdiv, if_neg i2, if_pos i1]
    exact ⟨rfl, rfl⟩
  · obtain ⟨hmod, hdiv⟩ := modDivChar (2 ^ w)
      (((a + 2 ^ w - b) % 2 ^ w + 2 ^ w - c) % 2 ^ w) 1
      (a + 2 * 2 ^ w - b - c) hD (by omega)
    simp only [sub_with_borrow_const, DiffBorrow.mk.injEq]
    rw [hmod, hdiv, if_pos i2, if_neg i1]
    exact ⟨rfl, rfl⟩
  · obtain ⟨hmod, hdiv⟩ := modDivChar (2 ^ w)
      (((a + 2 ^ w - b) % 2 ^ w + 2 ^ w - c) % 2 ^ w) 2
      (a + 2 * 2 ^ w - b - c) hD (by omega)
    simp only [sub_with_borrow_const, DiffBorrow.mk.injEq]
    rw [hmod, hdiv, if_neg i2, if_neg i1]
    exact ⟨rfl, rfl⟩

@[simp] lemma SumCarry_sum (x y : Nat) : (SumCarry.mk x y).sum = x := rfl

@[simp] lemma SumCarry_carry (x y : Nat) : (SumCarry.mk x y).carry = y := rfl

@[simp] lemma DiffBorrow_diff (x y : Nat) : (DiffBorrow.mk x y).diff = x := rfl

@[simp] lemma DiffBorrow_borrow (x y : Nat) : (DiffBorrow.mk x y).borrow = y := rfl

/-- C1: for every width `w > 0`, in-range summands and `carry_in ≤ 1`, the
pair returned by `add_with_carry` (and by the portable
`add_with_carry_const`) satisfies
`a + b + carry_in = sum + carry_out * 2 ^ w` over the unbounded integers. -/
theorem add_carry_identity (w a b c : Nat) (hw : 0 < w)
    (ha : a < 2 ^ w) (hb : b < 2 ^ w) (hc : c ≤ 1) :
    ((a : Int) + b + c = (add_with_carry w a b c).sum +
        (add_with_carry w a b c).carry * ((2 ^ w : Nat) : Int)) ∧
      ((a : Int) + b + c = (add_with_carry_const w a b c).sum +
        (add_with_carry_const w a b c).carry * ((2 ^ w : Nat) : Int)) := by
  have hN2 : 1 < 2 ^ w := Nat.one_lt_two_pow (by omega)
  have heq := add_with_carry_const_eq w a b c ha hb (by omega)
  have hdm := Nat.div_add_mod (a + b + c) (2 ^ w)
  have hm : (a + b + c) % 2 ^ w < 2 ^ w := Nat.mod_lt _ (by omega)
  have hd : (a + b + c) / 2 ^ w < 2 := by
    rw [Nat.div_lt_iff_lt_mul (by omega)]; omega
  have hdd : ((a + b + c) / 2 ^ w) % 2 ^ w = (a + b + c) / 2 ^ w :=
    Nat.mod_eq_of_lt (by omega)
  have key : (a : Int) + b + c = (add_with_carry_const w a b c).sum +
      (add_with_carry_const w a b c).carry * ((2 ^ w : Nat) : Int) := by
    rw [heq]
    simp only [SumCarry_sum, SumCarry_carry]
    rw [hdd]
    rcases (show (a + b + c) / 2 ^ w = 0 ∨ (a + b + c) / 2 ^ w = 1 from
      by omega) with h0 | h0 <;> rw [h0] at hdm ⊢ <;> omega
  exact ⟨key, key⟩

/-- C2: for every width `w > 0`, in-range operands and `borrow_in ≤ 1`, the
pair returned by `sub_with_borrow` (and by the portable
`sub_with_borrow_const`) satisfies
`a - b - borrow_in = diff - borrow_out * 2 ^ w` over the unbounded
integers. -/
theorem sub_borrow_identity (w a b c : Nat) (hw : 0 < w)
    (ha : a < 2 ^ w) (hb : b < 2 ^ w) (hc : c ≤ 1) :
    ((a : Int) - b - c = (sub_with_borrow w a b c).diff -
        (sub_with_borrow w a b c).borrow * ((2 ^ w : Nat) : Int)) ∧
      ((a : Int) - b - c = (sub_with_borrow_const w a b c).diff -
        (sub_with_borrow_const w a b c).borrow * ((2 ^ w : Nat) : Int)) := by
  have hN2 : 1 < 2 ^ w := Nat.one_lt_two_pow (by omega)
  have heq := sub_with_borrow_const_eq w a b c ha hb (by omega)
  have hdm := Nat.div_add_mod (a + 2 * 2 ^ w - b - c) (2 ^ w)
  have hm : (a + 2 * 2 ^ w - b - c) % 2 ^ w < 2 ^ w := Nat.mod_lt _ (by omega)
  have hd1 : 1 ≤ (a + 2 * 2 ^ w - b - c) / 2 ^ w := by
    rw [Nat.one_le_div_iff (by omega)]; omega
  have hd2 : (a + 2 * 2 ^ w - b - c) / 2 ^ w < 3 := by
    rw [Nat.div_lt_iff_lt_mul (by omega)]; omega
  have hbb : (2 - (a + 2 * 2 ^ w - b - c) / 2 ^ w) % 2 ^ w =
      2 - (a + 2 * 2 ^ w - b - c) / 2 ^ w := Nat.mod_eq_of_lt (by omega)
  have key : (a : Int) - b - c = (sub_with_borrow_const w a b c).diff -
      (sub_with_borrow_const w a b c).borrow * ((2 ^ w : Nat) : Int) := by
    rw [heq]
    simp only [DiffBorrow_diff, DiffBorrow_borrow]
    rw [hbb]
    rcases (show (a + 2 * 2 ^ w - b - c) / 2 ^ w = 1 ∨
        (a + 2 * 2 ^ w - b - c) / 2 ^ w = 2 from by omega) with h0 | h0 <;>
      rw [h0] at hdm ⊢ <;> omega
  exact ⟨key, key⟩

/-- C3: for every width `w > 0`, in-range operands and carry/borrow-in at
most one, the accelerated (builtin-based) strategies, modelled from the
spec as `add_with_carry_builtin` and `sub_with_borrow_builtin`, return
exactly the same pairs as the portable `add_with_carry_const` and
`sub_with_borrow_const`. -/
theorem accelerated_matches_portable (w a b c : Nat) (hw : 0 < w)
    (ha : a < 2 ^ w) (hb : b < 2 ^ w) (hc : c ≤ 1) :
    add_with_carry_builtin w a b c = add_with_carry_const w a b c ∧
      sub_with_borrow_builtin w a b c = sub_with_borrow_const w a b c := by
  have hN2 : 1 < 2 ^ w := Nat.one_lt_two_pow (by omega)
  constructor
  · rw [add_with_carry_const_eq w a b c ha hb (by omega)]
    have hd : (a + b + c) / 2 ^ w < 2 := by
      rw [Nat.div_lt_iff_lt_mul (by omega)]; omega
    simp only [add_with_carry_builtin, SumCarry.mk.injEq]
    exact ⟨trivial, (Nat.mod_eq_of_lt (by omega)).symm⟩
  · rw [sub_with_borrow_const_eq w a b c ha hb (by omega)]
    have hk1 : 1 ≤ (a + 2 * 2 ^ w - b - c) / 2 ^ w := by
      rw [Nat.one_le_div_iff (by omega)]; omega
    have hd2 : (a + 2 * 2 ^ w - b - c) / 2 ^ w < 3 := by
      rw [Nat.div_lt_iff_lt_mul (by omega)]; omega
    have hbb : (2 - (a + 2 * 2 ^ w - b - c) / 2 ^ w) % 2 ^ w =
        2 - (a + 2 * 2 ^ w - b - c) / 2 ^ w := Nat.mod_eq_of_lt (by omega)
    simp only [sub_with_borrow_builtin, DiffBorrow.mk.injEq]
    refine ⟨trivial, ?_⟩
    rw [hbb]
    split_ifs with h
    · have hk2 : (a + 2 * 2 ^ w - b - c) / 2 ^ w < 2 := by
        rw [Nat.div_lt_iff_lt_mul (by omega)]; omega
      omega
    · have hk2 : 2 ≤ (a + 2 * 2 ^ w - b - c) / 2 ^ w := by
        rw [Nat.le_div_iff_mul_le (by omega)]; omega
      omega

/-- C4: for every width `w > 0`, in-range operands and carry/borrow-in at
most one, the flag component of `add_with_carry` (resp. `sub_with_borrow`)
is zero or one. -/
theorem flags_are_boolean (w a b c : Nat) (hw : 0 < w)
    (ha : a < 2 ^ w) (hb : b < 2 ^ w) (hc : c ≤ 1) :
    ((add_with_carry w a b c).carry = 0 ∨ (add_with_carry w a b c).carry = 1) ∧
      ((sub_with_borrow w a b c).borrow = 0 ∨
        (sub_with_borrow w a b c).borrow = 1) := by
  have hN2 : 1 < 2 ^ w := Nat.one_lt_two_pow (by omega)
  constructor
  · show (add_with_carry_const w a b c).carry = 0 ∨
      (add_with_carry_const w a b c).carry = 1
    rw [add_with_carry_const_eq w a b c ha hb (by omega)]
    simp only [SumCarry_carry]
    have hd : (a + b + c) / 2 ^ w < 2 := by
      rw [Nat.div_lt_iff_lt_mul (by omega)]; omega
    have hdd : ((a + b + c) / 2 ^ w) % 2 ^ w = (a + b + c) / 2 ^ w :=
      Nat.mod_eq_of_lt (by omega)
    rw [hdd]
    omega
  · show (sub_with_borrow_const w a b c).borrow = 0 ∨
      (sub_with_borrow_const w a b c).borrow = 1
    rw [sub_with_borrow_const_eq w a b c ha hb (by omega)]
    simp only [DiffBorrow_borrow]
    have hk1 : 1 ≤ (a + 2 * 2 ^ w - b - c) / 2 ^ w := by
      rw [Nat.one_le_div_iff (by omega)]; omega
    have hd2 : (a + 2 * 2 ^ w - b - c) / 2 ^ w < 3 := by
      rw [Nat.div_lt_iff_lt_mul (by omega)]; omega
    have hbb : (2 - (a + 2 * 2 ^ w - b - c) / 2 ^ w) % 2 ^ w =
        2 - (a + 2 * 2 ^ w - b - c) / 2 ^ w := Nat.mod_eq_of_lt (by omega)
    rw [hbb]
    omega

/-- C5: for every width `w > 0` with `MAX = 2 ^ w - 1`,
`add_with_carry MAX MAX 1` returns `(MAX, 1)` and `sub_with_borrow 0 0 1`
returns `(MAX, 1)`. -/
theorem boundary_cases (w : Nat) (hw : 0 < w) :
    add_with_carry w (2 ^ w - 1) (2 ^ w - 1) 1 = ⟨2 ^ w - 1, 1⟩ ∧
      sub_with_borrow w 0 0 1 = ⟨2 ^ w - 1, 1⟩ := by
  have hN2 : 1 < 2 ^ w := Nat.one_lt_two_pow (by omega)
  constructor
  · show add_with_carry_const w (2 ^ w - 1) (2 ^ w - 1) 1 = ⟨2 ^ w - 1, 1⟩
    rw [add_with_carry_const_eq w (2 ^ w - 1) (2 ^ w - 1) 1
      (by omega) (by omega) (by omega)]
    obtain ⟨hm, hd⟩ := modDivChar (2 ^ w) (2 ^ w - 1) 1
      (2 ^ w - 1 + (2 ^ w - 1) + 1) (by omega) (by omega)
    rw [hm, hd, Nat.mod_eq_of_lt hN2]
  · show sub_with_borrow_const w 0 0 1 = ⟨2 ^ w - 1, 1⟩
    rw [sub_with_borrow_const_eq w 0 0 1 (by omega) (by omega) (by omega)]
    obtain ⟨hm, hd⟩ := modDivChar (2 ^ w) (2 ^ w - 1) 1
      (0 + 2 * 2 ^ w - 0 - 1) (by omega) (by omega)
    rw [hm, hd, Nat.mod_eq_of_lt hN2]

/-- C6: for every width `w > 0` and every in-range `a`,
`add_with_carry a 0 0` returns `(a, 0)` and `sub_with_borrow a 0 0`
returns `(a, 0)`: the pair `(0, 0)` is a right identity for both
engines. -/
theorem zero_identity (w a : Nat) (hw : 0 < w) (ha : a < 2 ^ w) :
    add_with_carry w a 0 0 = ⟨a, 0⟩ ∧ sub_with_borrow w a 0 0 = ⟨a, 0⟩ := by
  have hN2 : 1 < 2 ^ w := Nat.one_lt_two_pow (by omega)
  constructor
  · show add_with_carry_const w a 0 0 = ⟨a, 0⟩
    rw [add_with_carry_const_eq w a 0 0 ha (by omega) (by omega)]
    obtain ⟨hm, hd⟩ := modDivChar (2 ^ w) a 0 (a + 0 + 0) ha (by omega)
    rw [hm, hd, Nat.zero_mod]
  · show sub_with_borrow_const w a 0 0 = ⟨a, 0⟩
    rw [sub_with_borrow_const_eq w a 0 0 ha (by omega) (by omega)]
    obtain ⟨hm, hd⟩ := modDivChar (2 ^ w) a 2 (a + 2 * 2 ^ w - 0 - 0) ha
      (by omega)
    rw [hm, hd, Nat.zero_mod]

/-- C7: chaining two 64-bit limb additions with `add_with_carry` — low limb
`0xFFFFFFFFFFFFFFFF + 1` with carry-in 0, then high limb `0 + 0` with the
low limb's carry-out — yields limbs `(low = 0, high = 1)`, i.e. the 128-bit
value `2 ^ 64`. -/
theorem two_limb_chain :
    add_with_carry 64 0xFFFFFFFFFFFFFFFF 1 0 = ⟨0, 1⟩ ∧
      add_with_carry 64 0 0
        (add_with_carry 64 0xFFFFFFFFFFFFFFFF 1 0).carry = ⟨1, 0⟩ ∧
      (add_with_carry 64 0xFFFFFFFFFFFFFFFF 1 0).sum +
        2 ^ 64 * (add_with_carry 64 0 0
          (add_with_carry 64 0xFFFFFFFFFFFFFFFF 1 0).carry).sum = 2 ^ 64 := by
  decide

/-- C8: round-trip between the two portable engines: for every width `w > 0`
and in-range `a`, `b`, if `add_with_carry_const a b 0` returns `(s, c)` then
`sub_with_borrow_const s b 0` returns exactly `(a, c)`. -/
theorem add_sub_roundtrip (w a b : Nat) (hw : 0 < w)
    (ha : a < 2 ^ w) (hb : b < 2 ^ w) :
    sub_with_borrow_const w (add_with_carry_const w a b 0).sum b 0 =
      ⟨a, (add_with_carry_const w a b 0).carry⟩ := by
  have hN2 : 1 < 2 ^ w := Nat.one_lt_two_pow (by omega)
  have heq1 := add_with_carry_const_eq w a b 0 ha hb (by omega)
  have hs : (a + b + 0) % 2 ^ w < 2 ^ w := Nat.mod_lt _ (by omega)
  have hdm1 := Nat.div_add_mod (a + b + 0) (2 ^ w)
  have hd1 : (a + b + 0) / 2 ^ w < 2 := by
    rw [Nat.div_lt_iff_lt_mul (by omega)]; omega
  rw [heq1]
  simp only [SumCarry_sum, SumCarry_carry]
  rw [sub_with_borrow_const_eq w ((a + b + 0) % 2 ^ w) b 0 hs hb (by omega)]
  obtain ⟨k, hk⟩ : ∃ k, (a + b + 0) / 2 ^ w = k := ⟨_, rfl⟩
  rw [hk] at hdm1 hd1 ⊢
  rcases (show k = 0 ∨ k = 1 from by omega) with h0 | h0
  · rw [h0] at hdm1 ⊢
    obtain ⟨hm2, hd2⟩ := modDivChar (2 ^ w) a 2
      ((a + b + 0) % 2 ^ w + 2 * 2 ^ w - b - 0) ha (by omega)
    rw [hm2, hd2]
  · rw [h0] at hdm1 ⊢
    obtain ⟨hm2, hd2⟩ := modDivChar (2 ^ w) a 1
      ((a + b + 0) % 2 ^ w + 2 * 2 ^ w - b - 0) ha (by omega)
    rw [hm2, hd2]

/-- C9: the portable engines satisfy the decomposition identity for every
carry/borrow-in of the operand width, not just zero or one, with the flag
then ranging over `{0, 1, 2}`: for `w ≥ 2` and in-range `a`, `b`, `c`,
`add_with_carry_const` satisfies `a + b + c = sum + carry_out * 2 ^ w` with
`carry_out ≤ 2`, and `sub_with_borrow_const` satisfies
`a - b - c = diff - borrow_out * 2 ^ w` with `borrow_out ≤ 2`, over the
unbounded integers. -/
theorem general_decomposition (w a b c : Nat) (hw : 2 ≤ w)
    (ha : a < 2 ^ w) (hb : b < 2 ^ w) (hc : c < 2 ^ w) :
    ((a : Int) + b + c = (add_with_carry_const w a b c).sum +
        (add_with_carry_const w a b c).carry * ((2 ^ w : Nat) : Int) ∧
      (add_with_carry_const w a b c).carry ≤ 2) ∧
      ((a : Int) - b - c = (sub_with_borrow_const w a b c).diff -
        (sub_with_borrow_const w a b c).borrow * ((2 ^ w : Nat) : Int) ∧
      (sub_with_borrow_const w a b c).borrow ≤ 2) := by
  have hN4 : 4 ≤ 2 ^ w := by
    calc (4 : Nat) = 2 ^ 2 := by norm_num
    _ ≤ 2 ^ w := Nat.pow_le_pow_right (by norm_num) hw
  constructor
  · rw [add_with_carry_const_eq w a b c ha hb hc]
    simp only [SumCarry_sum, SumCarry_carry]
    have hdm := Nat.div_add_mod (a + b + c) (2 ^ w)
    have hm : (a + b + c) % 2 ^ w < 2 ^ w := Nat.mod_lt _ (by omega)
    have hd : (a + b + c) / 2 ^ w < 3 := by
      rw [Nat.div_lt_iff_lt_mul (by omega)]; omega
    obtain ⟨k, hk⟩ : ∃ k, (a + b + c) / 2 ^ w = k := ⟨_, rfl⟩
    rw [hk] at hdm hd ⊢
    have hdd : k % 2 ^ w = k := Nat.mod_eq_of_lt (by omega)
    rw [hdd]
    refine ⟨?_, by omega⟩
    rcases (show k = 0 ∨ k = 1 ∨ k = 2 from by omega) with h0 | h0 | h0 <;>
      rw [h0] at hdm ⊢ <;> omega
  · rw [sub_with_borrow_const_eq w a b c ha hb hc]
    simp only [DiffBorrow_diff, DiffBorrow_borrow]
    have hdm := Nat.div_add_mod (a + 2 * 2 ^ w - b - c) (2 ^ w)
    have hm : (a + 2 * 2 ^ w - b - c) % 2 ^ w < 2 ^ w :=
      Nat.mod_lt _ (by omega)
    have hd : (a + 2 * 2 ^ w - b - c) / 2 ^ w < 3 := by
      rw [Nat.div_lt_iff_lt_mul (by omega)]; omega
    obtain ⟨k, hk⟩ : ∃ k, (a + 2 * 2 ^ w - b - c) / 2 ^ w = k := ⟨_, rfl⟩
    rw [hk] at hdm hd ⊢
    have hbb : (2 - k) % 2 ^ w = 2 - k := Nat.mod_eq_of_lt (by omega)
    rw [hbb]
    refine ⟨?_, by omega⟩
    rcases (show k = 0 ∨ k = 1 ∨ k = 2 from by omega) with h0 | h0 | h0 <;>
      rw [h0] at hdm ⊢ <;> omega

/-- C10: the portable add engine is commutative in its two summands,
including the carry-out, for every carry-in of the operand width. -/
theorem add_commutative (w a b c : Nat)
    (ha : a < 2 ^ w) (hb : b < 2 ^ w) (hc : c < 2 ^ w) :
    add_with_carry_const w a b c = add_with_carry_const w b a c := by
  rw [add_with_carry_const_eq w a b c ha hb hc,
    add_with_carry_const_eq w b a c hb ha hc,
    show b + a + c = a + b + c from by omega]

/-- Witness for the C1 theorem at width 8, `a = 200`, `b = 100`,
`carry_in = 1`. -/
theorem add_carry_identity_witness :
    0 < 8 ∧ 200 < 2 ^ 8 ∧ 100 < 2 ^ 8 ∧ 1 ≤ 1 ∧
      (((200 : Int) + 100 + 1 = (add_with_carry 8 200 100 1).sum +
          (add_with_carry 8 200 100 1).carry * ((2 ^ 8 : Nat) : Int)) ∧
        ((200 : Int) + 100 + 1 = (add_with_carry_const 8 200 100 1).sum +
          (add_with_carry_const 8 200 100 1).carry * ((2 ^ 8 : Nat) : Int))) :=
  ⟨by decide, by decide, by decide, by decide,
    add_carry_identity 8 200 100 1 (by decide) (by decide) (by decide)
      (by decide)⟩

/-- Witness for the C2 theorem at width 8, `a = 5`, `b = 9`,
`borrow_in = 1`. -/
theorem sub_borrow_identity_witness :
    0 < 8 ∧ 5 < 2 ^ 8 ∧ 9 < 2 ^ 8 ∧ 1 ≤ 1 ∧
      (((5 : Int) - 9 - 1 = (sub_with_borrow 8 5 9 1).diff -
          (sub_with_borrow 8 5 9 1).borrow * ((2 ^ 8 : Nat) : Int)) ∧
        ((5 : Int) - 9 - 1 = (sub_with_borrow_const 8 5 9 1).diff -
          (sub_with_borrow_const 8 5 9 1).borrow * ((2 ^ 8 : Nat) : Int))) :=
  ⟨by decide, by decide, by decide, by decide,
    sub_borrow_identity 8 5 9 1 (by decide) (by decide) (by decide)
      (by decide)⟩

/-- Witness for the C3 theorem at width 8, `a = 250`, `b = 10`,
carry/borrow-in 1. -/
theorem accelerated_matches_portable_witness :
    0 < 8 ∧ 250 < 2 ^ 8 ∧ 10 < 2 ^ 8 ∧ 1 ≤ 1 ∧
      (add_with_carry_builtin 8 250 10 1 = add_with_carry_const 8 250 10 1 ∧
        sub_with_borrow_builtin 8 250 10 1 =
          sub_with_borrow_const 8 250 10 1) :=
  ⟨by decide, by decide, by decide, by decide,
    accelerated_matches_portable 8 250 10 1 (by decide) (by decide)
      (by decide) (by decide)⟩

/-- Witness for the C4 theorem at width 8, `a = b = 255`,
carry/borrow-in 1. -/
theorem flags_are_boolean_witness :
    0 < 8 ∧ 255 < 2 ^ 8 ∧ 255 < 2 ^ 8 ∧ 1 ≤ 1 ∧
      (((add_with_carry 8 255 255 1).carry = 0 ∨
          (add_with_carry 8 255 255 1).carry = 1) ∧
        ((sub_with_borrow 8 255 255 1).borrow = 0 ∨
          (sub_with_borrow 8 255 255 1).borrow = 1)) :=
  ⟨by decide, by decide, by decide, by decide,
    flags_are_boolean 8 255 255 1 (by decide) (by decide) (by decide)
      (by decide)⟩

/-- Witness for the C5 theorem at width 8. -/
theorem boundary_cases_witness :
    0 < 8 ∧
      (add_with_carry 8 (2 ^ 8 - 1) (2 ^ 8 - 1) 1 = ⟨2 ^ 8 - 1, 1⟩ ∧
        sub_with_borrow 8 0 0 1 = ⟨2 ^ 8 - 1, 1⟩) :=
  ⟨by decide, boundary_cases 8 (by decide)⟩

/-- Witness for the C6 theorem at width 8, `a = 123`. -/
theorem zero_identity_witness :
    0 < 8 ∧ 123 < 2 ^ 8 ∧
      (add_with_carry 8 123 0 0 = ⟨123, 0⟩ ∧
        sub_with_borrow 8 123 0 0 = ⟨123, 0⟩) :=
  ⟨by decide, by decide, zero_identity 8 123 (by decide) (by decide)⟩

/-- Witness for the C8 theorem at width 8, `a = 200`, `b = 100`. -/
theorem add_sub_roundtrip_witness :
    0 < 8 ∧ 200 < 2 ^ 8 ∧ 100 < 2 ^ 8 ∧
      sub_with_borrow_const 8 (add_with_carry_const 8 200 100 0).sum 100 0 =
        ⟨200, (add_with_carry_const 8 200 100 0).carry⟩ :=
  ⟨by decide, by decide, by decide,
    add_sub_roundtrip 8 200 100 (by decide) (by decide) (by decide)⟩

/-- Witness for the C9 theorem at width 8, `a = b = c = 255`. -/
theorem general_decomposition_witness :
    2 ≤ 8 ∧ 255 < 2 ^ 8 ∧ 255 < 2 ^ 8 ∧ 255 < 2 ^ 8 ∧
      ((((255 : Int) + 255 + 255 = (add_with_carry_const 8 255 255 255).sum +
          (add_with_carry_const 8 255 255 255).carry * ((2 ^ 8 : Nat) : Int) ∧
        (add_with_carry_const 8 255 255 255).carry ≤ 2)) ∧
        (((255 : Int) - 255 - 255 =
            (sub_with_borrow_const 8 255 255 255).diff -
            (sub_with_borrow_const 8 255 255 255).borrow *
              ((2 ^ 8 : Nat) : Int) ∧
          (sub_with_borrow_const 8 255 255 255).borrow ≤ 2))) :=
  ⟨by decide, by decide, by decide, by decide,
    general_decomposition 8 255 255 255 (by decide) (by decide) (by decide)
      (by decide)⟩

/-- Witness for the C10 theorem at width 8, `a = 3`, `b = 250`,
`carry_in = 77`. -/
theorem add_commutative_witness :
    3 < 2 ^ 8 ∧ 250 < 2 ^ 8 ∧ 77 < 2 ^ 8 ∧
      add_with_carry_const 8 3 250 77 = add_with_carry_const 8 250 3 77 :=
  ⟨by decide, by decide, by decide,
    add_commutative 8 3 250 77 (by decide) (by decide) (by decide)⟩

end MathExtras
